import Mathlib

/-!
# Catalog Reconciliation Pipeline — verification development

A shallow embedding of the reconciliation logic of the MeteoriteDashboard
repository: the session-scoped name→id lookup index built by the scraping
scripts (`fetch_ids.py`, `finish_fetching_ids.py`, `fill_remaining_ids.py`,
`fix_names_and_ids.py`), the identifier backfill `fill_id`, the crawl loops
with their stop conditions, and the dataset merge of `update_data.py` /
`clean_final_data.py`.
-/

namespace Meteorite

/-! ## Python dict model

The scripts accumulate `name_id_map` as a Python `dict`: assignment to an
existing key updates the value in place (keeping the key's original
insertion position), assignment to a fresh key appends it.  We model a dict
as an association list in insertion order. -/

/-- An insertion-ordered string→int dictionary, as built by
`name_id_map[clean_name] = int(code)`. -/
abbrev Dict := List (String × Int)

/-- Python dict assignment `d[k] = v`: update the value in place if `k` is
already a key (its position is preserved), otherwise append `(k, v)`. -/
def dictInsert : Dict → String → Int → Dict
  | [], k, v => [(k, v)]
  | p :: d, k, v => if p.1 = k then (k, v) :: d else p :: dictInsert d k v

/-- Python dict lookup `d[k]` / `k in d`: the value at the first (unique)
entry whose key is `k`. -/
def dictGet (d : Dict) (k : String) : Option Int :=
  (d.find? (fun p => p.1 == k)).map (fun p => p.2)

/-- `name_id_map` after processing a list of `(clean_name, int(code))`
occurrences in extraction order:
`for code, name_html in matches: name_id_map[clean_name] = int(code)`. -/
def buildMap (occs : List (String × Int)) : Dict :=
  occs.foldl (fun d q => dictInsert d q.1 q.2) []

/-- Python `str.strip()`: drop whitespace from both ends. -/
def pyStrip (s : String) : String :=
  ⟨((s.data.dropWhile Char.isWhitespace).reverse.dropWhile
      Char.isWhitespace).reverse⟩

/-- Python `str.lower()`: lowercase every character. -/
def pyLower (s : String) : String :=
  ⟨s.data.map Char.toLower⟩

/-- `name_id_map_lower = {k.lower(): v for k, v in name_id_map.items()}`:
a dict comprehension over the items of `d` in insertion order, keyed by the
lowercased key. -/
def lowerDict (d : Dict) : Dict :=
  d.foldl (fun m p => dictInsert m (pyLower p.1) p.2) []

/-! ## CatalogRecord and the identifier backfill

One row of the dataset.  `id` is `Option Int`: `none` models a pandas `NaN`
cell and `some 0` the explicit unresolved sentinel.  The remaining columns
are carried opaquely (the backfill never reads them). -/

structure Row where
  name : String
  id : Option Int
  recclass : String
  mass : Option ℚ
  fall : String
  year : Option Int
  reclat : Option ℚ
  reclong : Option ℚ
  year_int : Option Int
  mass_log : Option ℚ
  category_broad : String
deriving DecidableEq, Repr

/-- The lookup chain of `fill_id` for an unresolved row: try the exact map
on the stripped name, then the lowercase map on the lowercased stripped
name, else `0`.  (`name = str(row['name']).strip()`.) -/
def lookupName (d : Dict) (nm : String) : Int :=
  match dictGet d (pyStrip nm) with
  | some v => v
  | none =>
    match dictGet (lowerDict d) (pyLower (pyStrip nm)) with
    | some v => v
    | none => 0

/-- `fill_id(row)` from `fetch_ids.py` (identical in
`fill_remaining_ids.py`, `finish_fetching_ids.py`, `fix_names_and_ids.py`):
keep a non-null non-zero id, otherwise resolve the name through the two
maps, returning `0` on a miss. -/
def fillId (d : Dict) (row : Row) : Int :=
  match row.id with
  | some n => if n ≠ 0 then n else lookupName d row.name
  | none => lookupName d row.name

/-- The effect of `df['id'] = df.apply(fill_id, axis=1)` on one row: only
the `id` column is assigned. -/
def applyFill (d : Dict) (row : Row) : Row :=
  { row with id := some (fillId d row) }

/-- The whole apply step over the dataset. -/
def applyIndex (d : Dict) (df : List Row) : List Row :=
  df.map (applyFill d)

/-! ## Crawl loops

One fetched-and-extracted page of the id-scan scripts: the
`(clean_name, int(code))` anchor matches and the 4-digit year tokens found
in table cells (`re.findall(r'<td>(\d{4})</td>', response.text)`). An
exception anywhere inside the per-page `try` block is modelled as `none`
from the fetch function. -/

structure Page where
  links : List (String × Int)
  years : List Nat
deriving DecidableEq, Repr

/-- Folding one page's matches into the session dict. -/
def indexPage (d : Dict) (ms : List (String × Int)) : Dict :=
  ms.foldl (fun m q => dictInsert m q.1 q.2) d

/-- The dictionary-builder loop of `fill_missing_ids` (`fetch_ids.py`),
pages `range(0, 25)`: on an exception it logs and `break`s; an empty match
list is only logged and the loop moves on.  Returns the list of pages a
fetch was issued for, and the final map. -/
def fillMissingScan (fetch : Nat → Option Page) : Nat → Nat → Dict → List Nat × Dict
  | 0, _, d => ([], d)
  | fuel + 1, p, d =>
    match fetch p with
    | none => ([p], d)
    | some pg =>
      let d' := indexPage d pg.links
      let r := fillMissingScan fetch fuel (p + 1) d'
      (p :: r.1, r.2)

/-- `fill_missing_ids` scans pages 0–24. -/
def fillMissingCrawl (fetch : Nat → Option Page) : List Nat × Dict :=
  fillMissingScan fetch 25 0 []

/-- The scan loop of `finish_filling_ids` (`finish_fetching_ids.py`),
pages `range(0, 101)`: an exception is logged and the loop continues with
the next page; with no matches the year check is skipped and the loop
continues; with matches the page is indexed and the loop `break`s when the
minimum 4-digit year token is below 2012 (skipping the check when no year
tokens were found). -/
def finishScan (fetch : Nat → Option Page) : Nat → Nat → Dict → List Nat × Dict
  | 0, _, d => ([], d)
  | fuel + 1, p, d =>
    match fetch p with
    | none =>
      let r := finishScan fetch fuel (p + 1) d
      (p :: r.1, r.2)
    | some pg =>
      if pg.links.isEmpty then
        let r := finishScan fetch fuel (p + 1) d
        (p :: r.1, r.2)
      else
        let d' := indexPage d pg.links
        match pg.years.min? with
        | some m =>
          if m < 2012 then ([p], d')
          else
            let r := finishScan fetch fuel (p + 1) d'
            (p :: r.1, r.2)
        | none =>
          let r := finishScan fetch fuel (p + 1) d'
          (p :: r.1, r.2)

/-- `finish_filling_ids` scans pages 0–100. -/
def finishCrawl (fetch : Nat → Option Page) : List Nat × Dict :=
  finishScan fetch 101 0 []

/-- The scan loop of `fill_remaining_ids` (`fill_remaining_ids.py`),
pages `range(100, 181)`: an exception is logged, the loop sleeps and
continues with the next page; pages are indexed and the year tokens are
only printed — the loop has no early stop at all. -/
def remScan (fetch : Nat → Option Page) : Nat → Nat → Dict → List Nat × Dict
  | 0, _, d => ([], d)
  | fuel + 1, p, d =>
    match fetch p with
    | none =>
      let r := remScan fetch fuel (p + 1) d
      (p :: r.1, r.2)
    | some pg =>
      let d' := indexPage d pg.links
      let r := remScan fetch fuel (p + 1) d'
      (p :: r.1, r.2)

/-- `fill_remaining_ids` scans pages 100–180. -/
def remCrawl (fetch : Nat → Option Page) : List Nat × Dict :=
  remScan fetch 81 100 []

/-! The crawl of `get_latest_meteorites` (`update_data.py`).  One page
either raises inside the `try` (`err`), yields no parsable table
(`pd.read_html` raises `ValueError`, `noTable`), parses to a table without
a recognizable year column (`noYearCol`), or parses to a table whose rows
carry the coerced year values `temp_year` (`to_numeric(...).fillna(0)`). -/

inductive UPage where
  | err : UPage
  | noTable : UPage
  | noYearCol : UPage
  | table (years : List Int) : UPage
deriving DecidableEq, Repr

/-- Maximum of a page's coerced year values (pandas `.max()` over a
non-empty column). -/
def maxYear : List Int → Int
  | [] => 0
  | y :: ys => ys.foldl max y

/-- The `while keep_scraping` loop of `get_latest_meteorites`, modelled
with explicit fuel (the Python loop has no page ceiling).  `err` and
`noTable` both `break`.  A parsed table with zero rows makes
`int(min_year)` raise on NaN, which the page-level handler catches and
`break`s before the chunk is appended.  A non-empty chunk is appended, then
the loop stops when `max_year < 2012` with `max_year > 0`, else continues.
Returns the pages fetched and the accumulated `all_dfs`. -/
def updateScan (fetch : Nat → UPage) : Nat → Nat → List (List Int) → List Nat × List (List Int)
  | 0, _, acc => ([], acc)
  | fuel + 1, p, acc =>
    match fetch p with
    | .err => ([p], acc)
    | .noTable => ([p], acc)
    | .noYearCol =>
      let r := updateScan fetch fuel (p + 1) acc
      (p :: r.1, r.2)
    | .table ys =>
      if ys.isEmpty then ([p], acc)
      else
        let acc' := acc ++ [ys]
        if maxYear ys < 2012 ∧ 0 < maxYear ys then ([p], acc')
        else
          let r := updateScan fetch fuel (p + 1) acc'
          (p :: r.1, r.2)

/-! ## Dataset merge

`update_data.py` and `clean_final_data.py` deduplicate with

    df = df.sort_values(by=['name', 'reclat'], na_position='last')
    df = df.drop_duplicates(subset=['name'], keep='first')

We model the sort as a stable insertion sort on the lexicographic key
(name, reclat-with-NaN-last) and the duplicate drop as keeping the first
row of each name in that order. -/

/-- Sort key of a row under `sort_values(by=['name','reclat'],
na_position='last')`: the name (compared lexicographically as its character
list), then a rank putting present latitudes (ascending) before missing
ones. -/
def rowKey (r : Row) : Lex ((List Char) × Lex (ℚ × ℚ)) :=
  match r.reclat with
  | some q => toLex (r.name.data, toLex ((0 : ℚ), q))
  | none => toLex (r.name.data, toLex ((1 : ℚ), 0))

/-- Row comparison used by the pre-sort. -/
def rowLE (a b : Row) : Prop :=
  rowKey a ≤ rowKey b

instance : DecidableRel rowLE := fun a b =>
  inferInstanceAs (Decidable (rowKey a ≤ rowKey b))

instance : IsTotal Row rowLE :=
  ⟨fun a b => le_total (rowKey a) (rowKey b)⟩

instance : IsTrans Row rowLE :=
  ⟨fun _ _ _ h h' => le_trans h h'⟩

/-- `drop_duplicates(subset=['name'], keep='first')`: keep the first row
bearing each name, preserving order (later rows with an already-seen name
are dropped). -/
def dedupByName : List Row → List Row
  | [] => []
  | r :: rs => r :: (dedupByName rs).filter (fun s => s.name != r.name)

/-- The merge of a base snapshot and an incremental snapshot:
`pd.concat`, the coordinate-priority pre-sort, then the duplicate drop. -/
def mergeDatasets (base new : List Row) : List Row :=
  dedupByName (List.insertionSort rowLE (base ++ new))

/-- A dataset row with only a name and an id; the remaining columns are
blank.  Used to instantiate theorems at concrete records. -/
def mkRow (nm : String) (i : Option Int) : Row :=
  { name := nm, id := i, recclass := "", mass := none, fall := "", year := none,
    reclat := none, reclong := none, year_int := none, mass_log := none,
    category_broad := "" }

/-! ## The identifier backfill: basic lemmas -/

theorem fillId_applyFill (d : Dict) (row : Row) :
    fillId d (applyFill d row) = fillId d row := by
  have key : fillId d (applyFill d row)
      = if fillId d row ≠ 0 then fillId d row else lookupName d row.name := rfl
  by_cases h : fillId d row = 0
  · rw [key, if_neg (by simpa using h)]
    rcases hid : row.id with _ | n
    · simp [fillId, hid]
    · by_cases hn : n = 0
      · simp [fillId, hid, hn]
      · simp [fillId, hid, hn] at h
  · rw [key, if_pos h]

theorem applyFill_applyFill (d : Dict) (row : Row) :
    applyFill d (applyFill d row) = applyFill d row := by
  have h := fillId_applyFill d row
  simp only [applyFill] at h ⊢
  rw [h]

/-- C1: once a record's externalId is non-null and non-zero, an apply pass
returns exactly the prior id, whatever the index maps the name to. -/
theorem backfill_never_overwrites (d : Dict) (df : List Row) (i : Nat)
    (row : Row) (n : Int)
    (hrow : df[i]? = some row) (hid : row.id = some n) (hnz : n ≠ 0) :
    (applyIndex d df)[i]? = some (applyFill d row) ∧
      (applyFill d row).id = row.id := by
  constructor
  · simp [applyIndex, hrow]
  · simp [applyFill, fillId, hid, hnz]

/-- C1 witness: a record already resolved to 7 keeps 7 even though the
index maps its name to 9. -/
theorem backfill_never_overwrites_witness :
    (applyIndex (buildMap [("Hoba", 9)]) [mkRow "Hoba" (some 7)])[0]? =
      some (applyFill (buildMap [("Hoba", 9)]) (mkRow "Hoba" (some 7))) ∧
      (applyFill (buildMap [("Hoba", 9)]) (mkRow "Hoba" (some 7))).id =
        (mkRow "Hoba" (some 7)).id :=
  backfill_never_overwrites (buildMap [("Hoba", 9)]) [mkRow "Hoba" (some 7)]
    0 (mkRow "Hoba" (some 7)) 7 rfl rfl (by decide)

/-- C2: applying the backfill twice with the same lookup index produces a
dataset identical to applying it once. -/
theorem backfill_idempotent (d : Dict) (df : List Row) :
    applyIndex d (applyIndex d df) = applyIndex d df := by
  simp only [applyIndex, List.map_map]
  exact List.map_congr_left fun row _ => applyFill_applyFill d row

/-- C3: an unresolved record is resolved through the exact map on the
stripped name first, then through the lowercase map; a hit assigns the
found id and a double miss leaves the id 0. -/
theorem backfill_lookup_priority (d : Dict) (row : Row)
    (hun : row.id = none ∨ row.id = some 0) :
    (∀ v, dictGet d (pyStrip row.name) = some v →
      (applyFill d row).id = some v) ∧
    (dictGet d (pyStrip row.name) = none →
      ∀ v, dictGet (lowerDict d) (pyLower (pyStrip row.name)) = some v →
        (applyFill d row).id = some v) ∧
    (dictGet d (pyStrip row.name) = none →
      dictGet (lowerDict d) (pyLower (pyStrip row.name)) = none →
      (applyFill d row).id = some 0) := by
  refine ⟨fun v hv => ?_, fun h₁ v hv => ?_, fun h₁ h₂ => ?_⟩ <;>
    rcases hun with h | h <;>
      simp_all [applyFill, fillId, lookupName]

/-- C3 witness (Scenario A): the record {name "NWA 869", id 0} against an
index holding (1234, "NWA 869") comes out with id 1234. -/
theorem backfill_lookup_priority_witness :
    dictGet (buildMap [("NWA 869", 1234)]) (pyStrip (mkRow "NWA 869" (some 0)).name) =
      some 1234 ∧
    (applyFill (buildMap [("NWA 869", 1234)]) (mkRow "NWA 869" (some 0))).id =
      some 1234 :=
  ⟨by decide,
    (backfill_lookup_priority (buildMap [("NWA 869", 1234)])
        (mkRow "NWA 869" (some 0)) (Or.inr rfl)).1 1234 (by decide)⟩

/-- C10: an apply pass writes only the id column — every other field of
every record is returned unchanged. -/
theorem backfill_frame (d : Dict) (row : Row) :
    (applyFill d row).name = row.name ∧
    (applyFill d row).recclass = row.recclass ∧
    (applyFill d row).mass = row.mass ∧
    (applyFill d row).fall = row.fall ∧
    (applyFill d row).year = row.year ∧
    (applyFill d row).reclat = row.reclat ∧
    (applyFill d row).reclong = row.reclong ∧
    (applyFill d row).year_int = row.year_int ∧
    (applyFill d row).mass_log = row.mass_log ∧
    (applyFill d row).category_broad = row.category_broad :=
  ⟨rfl, rfl, rfl, rfl, rfl, rfl, rfl, rfl, rfl, rfl⟩

/-! ## Characterizing the lookup index -/

theorem dictGet_nil (k : String) : dictGet [] k = none := rfl

theorem dictGet_cons (p : String × Int) (d : Dict) (k : String) :
    dictGet (p :: d) k = if p.1 = k then some p.2 else dictGet d k := by
  by_cases h : p.1 = k <;> simp [dictGet, h]

theorem dictGet_dictInsert (d : Dict) (k : String) (v : Int) (k' : String) :
    dictGet (dictInsert d k v) k' = if k' = k then some v else dictGet d k' := by
  induction d with
  | nil =>
    show dictGet [(k, v)] k' = if k' = k then some v else dictGet [] k'
    rw [dictGet_cons]
    by_cases hk : k' = k
    · rw [if_pos (show (k, v).1 = k' from hk.symm), if_pos hk]
    · rw [if_neg (show ¬(k, v).1 = k' from fun h => hk h.symm), if_neg hk]
  | cons p d ih =>
    show dictGet (if p.1 = k then (k, v) :: d else p :: dictInsert d k v) k'
        = if k' = k then some v else dictGet (p :: d) k'
    by_cases hp : p.1 = k
    · rw [if_pos hp, dictGet_cons, dictGet_cons]
      by_cases hk : k' = k
      · rw [if_pos hk.symm, if_pos hk]
      · rw [if_neg (fun h => hk h.symm), if_neg hk,
          if_neg (fun h : p.1 = k' => hk (h.symm.trans hp))]
    · rw [if_neg hp, dictGet_cons, dictGet_cons]
      by_cases hpk : p.1 = k'
      · rw [if_pos hpk, if_neg (fun h : k' = k => hp (hpk.trans h)), if_pos hpk]
      · rw [if_neg hpk, ih, if_neg hpk]

theorem exists_getLast?_cons {α : Type} (r : α) (rs : List α) :
    ∃ y, (r :: rs).getLast? = some y := by
  cases h : (r :: rs).getLast? with
  | none => exact absurd (List.getLast?_eq_none_iff.mp h) (by simp)
  | some y => exact ⟨y, rfl⟩

/-- Folding `(key, value)` assignments into a dict, with keys transformed
by `g`, realizes last-write-wins: a lookup returns the value of the last
assignment whose transformed key matches, else falls back to the start
dict. -/
theorem dictGet_foldl_insert (g : String → String) (l : List (String × Int))
    (d : Dict) (k : String) :
    dictGet (l.foldl (fun m p => dictInsert m (g p.1) p.2) d) k =
      match (l.filter (fun p => g p.1 == k)).getLast? with
      | some q => some q.2
      | none => dictGet d k := by
  induction l generalizing d with
  | nil => rfl
  | cons q l ih =>
    rw [List.foldl_cons, ih]
    by_cases hq : g q.1 = k
    · rw [List.filter_cons_of_pos (by simpa using hq)]
      cases hfl : l.filter (fun p => g p.1 == k) with
      | nil =>
        show dictGet (dictInsert d (g q.1) q.2) k = some q.2
        rw [dictGet_dictInsert, if_pos hq.symm]
      | cons r rs =>
        rw [List.getLast?_cons_cons]
        obtain ⟨y, hy⟩ := exists_getLast?_cons r rs
        rw [hy]
    · rw [List.filter_cons_of_neg (by simpa using hq)]
      cases hfl : l.filter (fun p => g p.1 == k) with
      | nil =>
        show dictGet (dictInsert d (g q.1) q.2) k = dictGet d k
        rw [dictGet_dictInsert, if_neg (fun h => hq h.symm)]
      | cons r rs =>
        obtain ⟨y, hy⟩ := exists_getLast?_cons r rs
        rw [hy]

/-- Last-write-wins for the exact map: `name_id_map[k]` is the id of the
last occurrence whose cleaned name is exactly `k`. -/
theorem dictGet_buildMap (occs : List (String × Int)) (k : String) :
    dictGet (buildMap occs) k =
      match (occs.filter (fun p => p.1 == k)).getLast? with
      | some q => some q.2
      | none => none := by
  have h := dictGet_foldl_insert id occs [] k
  simp only [id_eq, dictGet_nil] at h
  simp only [buildMap]
  exact h

/-- The derived lowercase map looks up the last *entry of the exact map*
(in first-insertion order) whose lowercased key matches. -/
theorem dictGet_lowerDict (d : Dict) (k : String) :
    dictGet (lowerDict d) k =
      match (d.filter (fun p => pyLower p.1 == k)).getLast? with
      | some q => some q.2
      | none => none := by
  have h := dictGet_foldl_insert pyLower d [] k
  simp only [dictGet_nil] at h
  simp only [lowerDict]
  exact h

theorem mem_dictInsert (d : Dict) (k : String) (v : Int) (x : String × Int)
    (hx : x ∈ dictInsert d k v) : x = (k, v) ∨ x ∈ d := by
  induction d with
  | nil => simpa [dictInsert] using hx
  | cons p d ih =>
    by_cases hp : p.1 = k
    · simp only [dictInsert, if_pos hp, List.mem_cons] at hx
      rcases hx with h | h
      · exact Or.inl h
      · exact Or.inr (List.mem_cons_of_mem _ h)
    · simp only [dictInsert, if_neg hp, List.mem_cons] at hx
      rcases hx with h | h
      · exact Or.inr (h ▸ List.mem_cons_self _ _)
      · rcases ih h with h' | h'
        · exact Or.inl h'
        · exact Or.inr (List.mem_cons_of_mem _ h')

theorem mem_foldl_insert (occs : List (String × Int)) (d : Dict)
    (x : String × Int)
    (hx : x ∈ occs.foldl (fun m q => dictInsert m q.1 q.2) d) :
    x ∈ d ∨ ∃ y ∈ occs, x.1 = y.1 := by
  induction occs generalizing d with
  | nil => exact Or.inl hx
  | cons q occs ih =>
    rcases ih _ hx with h | h
    · rcases mem_dictInsert _ _ _ _ h with h' | h'
      · exact Or.inr ⟨q, List.mem_cons_self _ _, by rw [h']⟩
      · exact Or.inl h'
    · rcases h with ⟨y, hy, hxy⟩
      exact Or.inr ⟨y, List.mem_cons_of_mem _ hy, hxy⟩

/-- Every entry of the session map comes from some occurrence. -/
theorem mem_buildMap_key (occs : List (String × Int)) (x : String × Int)
    (hx : x ∈ buildMap occs) : ∃ y ∈ occs, x.1 = y.1 := by
  rcases mem_foldl_insert occs [] x hx with h | h
  · simp at h
  · exact h

theorem keys_dictInsert (d : Dict) (k : String) (v : Int) :
    (dictInsert d k v).map (fun p => p.1) =
      if k ∈ d.map (fun p => p.1) then d.map (fun p => p.1)
      else d.map (fun p => p.1) ++ [k] := by
  induction d with
  | nil => simp [dictInsert]
  | cons p d ih =>
    by_cases hp : p.1 = k
    · simp [dictInsert, hp]
    · by_cases hm : k ∈ d.map (fun p => p.1)
      · simp [dictInsert, hp, hm, ih, fun h : k = p.1 => hp h.symm]
      · simp [dictInsert, hp, hm, ih]
        rw [if_neg (fun h : k = p.1 => hp h.symm)]

theorem keysNodup_dictInsert (d : Dict) (k : String) (v : Int)
    (h : (d.map (fun p => p.1)).Nodup) :
    ((dictInsert d k v).map (fun p => p.1)).Nodup := by
  rw [keys_dictInsert]
  by_cases hm : k ∈ d.map (fun p => p.1)
  · rwa [if_pos hm]
  · rw [if_neg hm]
    simp [List.nodup_append, h, hm]

/-- The session map has pairwise distinct keys. -/
theorem keysNodup_buildMap (occs : List (String × Int)) :
    ((buildMap occs).map (fun p => p.1)).Nodup := by
  suffices h : ∀ d : Dict, (d.map (fun p => p.1)).Nodup →
      ((occs.foldl (fun m q => dictInsert m q.1 q.2) d).map (fun p => p.1)).Nodup by
    exact h [] (by simp)
  induction occs with
  | nil => exact fun d hd => hd
  | cons q occs ih => exact fun d hd => ih _ (keysNodup_dictInsert _ _ _ hd)

/-- With duplicate-free keys, filtering by a key yields exactly the
`find?` result. -/
theorem filter_key_of_nodup (d : Dict) (k : String)
    (h : (d.map (fun p => p.1)).Nodup) :
    d.filter (fun p => p.1 == k) =
      match d.find? (fun p => p.1 == k) with
      | some e => [e]
      | none => [] := by
  induction d with
  | nil => rfl
  | cons p d ih =>
    have h'' : (p.1 :: d.map (fun p => p.1)).Nodup := by simpa using h
    have h1 : p.1 ∉ d.map (fun p => p.1) := (List.nodup_cons.mp h'').1
    have h2 : (d.map (fun p => p.1)).Nodup := (List.nodup_cons.mp h'').2
    by_cases hp : p.1 = k
    · rw [List.filter_cons_of_pos (by simpa using hp),
        List.find?_cons_of_pos _ (by simpa using hp)]
      have hnil : d.filter (fun p => p.1 == k) = [] := by
        apply List.filter_eq_nil_iff.mpr
        intro q hq hqk
        have hq1 : q.1 = k := by simpa using hqk
        exact h1 (List.mem_map.mpr ⟨q, hq, hq1.trans hp.symm⟩)
      rw [hnil]
    · rw [List.filter_cons_of_neg (by simpa using hp),
        List.find?_cons_of_neg _ (by simpa using hp)]
      exact ih h2

theorem dictGet_eq_getLast_filter (d : Dict) (k : String)
    (h : (d.map (fun p => p.1)).Nodup) :
    ((d.filter (fun p => p.1 == k)).getLast?).map (fun p => p.2) = dictGet d k := by
  rw [filter_key_of_nodup d k h, dictGet]
  cases d.find? (fun p => p.1 == k) <;> rfl

/-- C8 counterexample: in the session [("ABC",1), ("abc",2), ("ABC",3)] the
normalized name "abc" occurs three times and its latest occurrence carries
id 3, yet the derived lowercase map stores 2 for it (the exact spelling
"abc" was first-inserted after "ABC", so its final value wins the dict
comprehension). -/
theorem index_last_write_wins_cex :
    (([("ABC", 1), ("abc", 2), ("ABC", 3)] : List (String × Int)).filter
        (fun p => pyLower p.1 == "abc")).getLast? = some ("ABC", 3) ∧
    dictGet (lowerDict (buildMap [("ABC", 1), ("abc", 2), ("ABC", 3)])) "abc"
      = some 2 := by
  exact ⟨by decide, by decide⟩

/-- C8 (amended): last-write-wins holds unconditionally for the exact map —
the stored id is the one of the latest occurrence with that exact cleaned
name; for the derived lowercase map it holds provided the session uses a
single exact spelling per lowercase name. -/
theorem index_last_write_wins (occs : List (String × Int)) (k : String) :
    dictGet (buildMap occs) k =
      ((occs.filter (fun p => p.1 == k)).getLast?).map (fun p => p.2) ∧
    ((∀ p ∈ occs, ∀ q ∈ occs, pyLower p.1 = pyLower q.1 → p.1 = q.1) →
      dictGet (lowerDict (buildMap occs)) k =
        ((occs.filter (fun p => pyLower p.1 == k)).getLast?).map (fun p => p.2)) := by
  constructor
  · rw [dictGet_buildMap]
    cases (occs.filter (fun p => p.1 == k)).getLast? <;> rfl
  · intro huniq
    rw [dictGet_lowerDict]
    cases hocc : (occs.filter (fun p => pyLower p.1 == k)).getLast? with
    | none =>
      have hfil : occs.filter (fun p => pyLower p.1 == k) = [] :=
        List.getLast?_eq_none_iff.mp hocc
      have hnone : ∀ y ∈ occs, ¬((pyLower y.1 == k) = true) := by
        intro y hy hyk
        have hmem : y ∈ occs.filter (fun p => pyLower p.1 == k) :=
          List.mem_filter.mpr ⟨hy, hyk⟩
        rw [hfil] at hmem
        simp at hmem
      have hbm : (buildMap occs).filter (fun p => pyLower p.1 == k) = [] := by
        apply List.filter_eq_nil_iff.mpr
        intro x hx hxk
        obtain ⟨y, hy, hxy⟩ := mem_buildMap_key occs x hx
        exact hnone y hy (by rw [← hxy]; exact hxk)
      rw [hbm]
      rfl
    | some e =>
      have he : e ∈ occs.filter (fun p => pyLower p.1 == k) :=
        List.mem_of_mem_getLast? (by rw [hocc]; rfl)
      have heocc : e ∈ occs := (List.mem_filter.mp he).1
      have hek : pyLower e.1 = k := by simpa using (List.mem_filter.mp he).2
      have hsp : ∀ y ∈ occs, (pyLower y.1 == k) = (y.1 == e.1) := by
        intro y hy
        by_cases h1 : pyLower y.1 = k
        · have h2 : y.1 = e.1 := huniq y hy e heocc (h1.trans hek.symm)
          simp [h1, h2, hek]
        · have h2 : ¬(y.1 = e.1) := fun hc => h1 (by rw [hc, hek])
          simp [h1, h2]
      have hoccs : occs.filter (fun p => pyLower p.1 == k)
          = occs.filter (fun p => p.1 == e.1) := List.filter_congr hsp
      have hbm : (buildMap occs).filter (fun p => pyLower p.1 == k)
          = (buildMap occs).filter (fun p => p.1 == e.1) := by
        apply List.filter_congr
        intro x hx
        obtain ⟨y, hy, hxy⟩ := mem_buildMap_key occs x hx
        rw [hxy]
        exact hsp y hy
      have hfin : dictGet (buildMap occs) e.1 = some e.2 := by
        rw [dictGet_buildMap, ← hoccs, hocc]
      have hmm : (match ((buildMap occs).filter (fun p => p.1 == e.1)).getLast? with
          | some q => some (q.2 : Int)
          | none => none)
          = (((buildMap occs).filter (fun p => p.1 == e.1)).getLast?).map
              (fun p => p.2) := by
        cases ((buildMap occs).filter (fun p => p.1 == e.1)).getLast? <;> rfl
      rw [hbm, hmm, dictGet_eq_getLast_filter _ _ (keysNodup_buildMap occs), hfin]
      rfl

/-- C8 witness: in a session with the single occurrence ("Hoba", 4), the
lowercase map stores 4 under "hoba". -/
theorem index_last_write_wins_witness :
    (∀ p ∈ ([("Hoba", 4)] : List (String × Int)), ∀ q ∈ [("Hoba", 4)],
        pyLower p.1 = pyLower q.1 → p.1 = q.1) ∧
    dictGet (lowerDict (buildMap [("Hoba", 4)])) "hoba" = some 4 := by
  refine ⟨by decide, ?_⟩
  have h := (index_last_write_wins [("Hoba", 4)] "hoba").2 (by decide)
  rw [h]
  decide

/-- C9 counterexample: with the index built from ("Allende" ↦ 5) then
("ALLENDE" ↦ 9), the local case variants "Allende" and "allende" share the
lowercase comparison key yet are backfilled to different ids, because the
exact-match tier is consulted before the lowercase tier. -/
theorem compare_key_cex :
    pyLower (pyStrip "Allende") = pyLower (pyStrip "allende") ∧
    (applyFill (buildMap [("Allende", 5), ("ALLENDE", 9)])
        (mkRow "Allende" (some 0))).id = some 5 ∧
    (applyFill (buildMap [("Allende", 5), ("ALLENDE", 9)])
        (mkRow "allende" (some 0))).id = some 9 :=
  ⟨by decide, by decide, by decide⟩

/-- C9 (amended): the comparison key of the fallback tier is the lowercase
of the stripped name, and whenever the index has duplicate-free keys using
one exact spelling per lowercase key, any two local names with the same
comparison key — such as "Allende", "allende" and " Allende " — resolve to
the same id during backfill. -/
theorem compare_key_equiv (d : Dict)
    (hnod : (d.map (fun p => p.1)).Nodup)
    (huniq : ∀ p ∈ d, ∀ q ∈ d, pyLower p.1 = pyLower q.1 → p.1 = q.1)
    (n₁ n₂ : String) (hk : pyLower (pyStrip n₁) = pyLower (pyStrip n₂)) :
    lookupName d n₁ = lookupName d n₂ := by
  have key : ∀ n : String, lookupName d n =
      match dictGet (lowerDict d) (pyLower (pyStrip n)) with
      | some v => v
      | none => 0 := by
    intro n
    cases hex : dictGet d (pyStrip n) with
    | none => simp only [lookupName, hex]
    | some v =>
      obtain ⟨e, hfind, hev⟩ : ∃ e, d.find? (fun p => p.1 == pyStrip n) = some e
          ∧ e.2 = v := by
        rcases hfe : d.find? (fun p => p.1 == pyStrip n) with _ | e
        · rw [dictGet, hfe] at hex
          simp at hex
        · rw [dictGet, hfe] at hex
          simp at hex
          exact ⟨e, hfe, hex⟩
      have hed : e ∈ d := List.mem_of_find?_eq_some hfind
      have hekey : e.1 = pyStrip n := by simpa using List.find?_some hfind
      have hsp : ∀ y ∈ d, (pyLower y.1 == pyLower (pyStrip n)) = (y.1 == e.1) := by
        intro y hy
        by_cases h1 : pyLower y.1 = pyLower (pyStrip n)
        · have h2 : y.1 = e.1 := huniq y hy e hed (by rw [h1, hekey])
          simp [h1, h2, hekey]
        · have h2 : ¬(y.1 = e.1) := fun hc => h1 (by rw [hc, hekey])
          simp [h1, h2]
      have hlow : dictGet (lowerDict d) (pyLower (pyStrip n)) = some v := by
        have hstep : dictGet (lowerDict d) (pyLower (pyStrip n))
            = ((d.filter (fun p => p.1 == e.1)).getLast?).map (fun p => p.2) := by
          rw [dictGet_lowerDict, List.filter_congr hsp]
          cases (d.filter (fun p => p.1 == e.1)).getLast? <;> rfl
        rw [hstep, dictGet_eq_getLast_filter d e.1 hnod, hekey, hex]
      simp only [lookupName, hex, hlow]
  rw [key n₁, key n₂, hk]

/-! ## The survivorship merge -/

theorem dedupByName_sublist (l : List Row) : List.Sublist (dedupByName l) l := by
  induction l with
  | nil => simp [dedupByName]
  | cons r rs ih =>
    rw [dedupByName]
    exact ((List.filter_sublist _).trans ih).cons₂ r

theorem mem_dedupByName_names (l : List Row) (n : String) :
    (∃ r ∈ l, r.name = n) → ∃ r ∈ dedupByName l, r.name = n := by
  induction l with
  | nil =>
    rintro ⟨s, hs, -⟩
    simp at hs
  | cons r rs ih =>
    rintro ⟨s, hs, hsn⟩
    simp only [dedupByName]
    rcases List.mem_cons.mp hs with rfl | hs'
    · exact ⟨s, List.mem_cons_self _ _, hsn⟩
    · by_cases hname : n = r.name
      · exact ⟨r, List.mem_cons_self _ _, hname.symm⟩
      · obtain ⟨t, ht, htn⟩ := ih ⟨s, hs', hsn⟩
        have htf : t ∈ (dedupByName rs).filter (fun u => u.name != r.name) :=
          List.mem_filter.mpr ⟨ht, by simp [htn, hname]⟩
        exact ⟨t, List.mem_cons_of_mem _ htf, htn⟩

theorem dedupByName_names_nodup (l : List Row) :
    ((dedupByName l).map (fun r => r.name)).Nodup := by
  induction l with
  | nil => simp [dedupByName]
  | cons r rs ih =>
    simp only [dedupByName, List.map_cons]
    refine List.nodup_cons.mpr ⟨?_, ?_⟩
    · intro hmem
      obtain ⟨t, ht, htn⟩ := List.mem_map.mp hmem
      have hne := (List.mem_filter.mp ht).2
      simp [htn] at hne
    · exact List.Nodup.sublist (List.Sublist.map _ (List.filter_sublist _)) ih

/-- In a sorted list, the surviving (first) row of each name is minimal
among all rows of that name. -/
theorem dedupByName_min (l : List Row) :
    List.Sorted rowLE l →
      ∀ x ∈ dedupByName l, ∀ s ∈ l, s.name = x.name → rowLE x s := by
  induction l with
  | nil =>
    intro _ x hx
    simp [dedupByName] at hx
  | cons r rs ih =>
    intro hs x hx s hsl hname
    simp only [dedupByName] at hx
    rcases List.mem_cons.mp hx with rfl | hx'
    · rcases List.mem_cons.mp hsl with rfl | hs'
      · exact le_refl _
      · exact (List.sorted_cons.mp hs).1 s hs'
    · have hxd : x ∈ dedupByName rs := (List.mem_filter.mp hx').1
      have hxname : x.name ≠ r.name := by
        have hb := (List.mem_filter.mp hx').2
        simpa using hb
      rcases List.mem_cons.mp hsl with rfl | hs'
      · exact absurd hname.symm hxname
      · exact ih (List.sorted_cons.mp hs).2 x hxd s hs' hname

/-- C7: the merge keeps exactly one record per distinct name — exactly the
input names survive, each survivor comes from the concatenation, and a
record with a latitude value beats one without, whichever snapshot came
first in the concatenation. -/
theorem merge_coordinate_priority (base new : List Row) :
    ((mergeDatasets base new).map (fun r => r.name)).Nodup ∧
    (∀ r ∈ mergeDatasets base new, r ∈ base ++ new) ∧
    (∀ n, (∃ r ∈ base ++ new, r.name = n) ↔
      ∃ r ∈ mergeDatasets base new, r.name = n) ∧
    (∀ n r, (∃ s ∈ base ++ new, s.name = n ∧ s.reclat.isSome) →
      r ∈ mergeDatasets base new → r.name = n → r.reclat.isSome) := by
  have hperm := List.perm_insertionSort rowLE (base ++ new)
  have hsort := List.sorted_insertionSort rowLE (base ++ new)
  refine ⟨dedupByName_names_nodup _, ?_, ?_, ?_⟩
  · intro r hr
    exact hperm.subset ((dedupByName_sublist _).subset hr)
  · intro n
    constructor
    · rintro ⟨r, hr, hrn⟩
      exact mem_dedupByName_names _ n ⟨r, hperm.mem_iff.mpr hr, hrn⟩
    · rintro ⟨r, hr, hrn⟩
      exact ⟨r, hperm.subset ((dedupByName_sublist _).subset hr), hrn⟩
  · intro n r hex hr hname
    obtain ⟨s, hsmem, hsn, hslat⟩ := hex
    have hsL : s ∈ List.insertionSort rowLE (base ++ new) :=
      hperm.mem_iff.mpr hsmem
    have hle : rowLE r s :=
      dedupByName_min _ hsort r hr s hsL (hsn.trans hname.symm)
    cases hlat : r.reclat with
    | some q => rfl
    | none =>
      exfalso
      cases hslat' : s.reclat with
      | none =>
        rw [hslat'] at hslat
        simp at hslat
      | some qs =>
        have hkey : rowKey r ≤ rowKey s := hle
        simp only [rowKey, hlat, hslat'] at hkey
        have hnames : r.name = s.name := hname.trans hsn.symm
        rcases (Prod.Lex.le_iff _ _).mp hkey with hlt | ⟨-, hle2⟩
        · exact absurd (hnames ▸ hlt) (lt_irrefl _)
        · rcases (Prod.Lex.le_iff _ _).mp hle2 with h10 | ⟨h10, -⟩
          · norm_num at h10
          · norm_num at h10

/-- Latitude -19.58 of the Hoba record, as a rational in lowest terms. -/
def hobaLat : ℚ := ⟨-979, 50, by decide, by decide⟩

/-- The Hoba record with a latitude value. -/
def hobaCoord : Row :=
  { mkRow "Hoba" (some 0) with reclat := some hobaLat }

/-- C7 witness (Scenario C): merging the Hoba record without a latitude
and the one with lat -19.58 yields the single coordinate-bearing record in
either concatenation order, and its survivor carries a latitude by the
merge theorem. -/
theorem merge_coordinate_priority_witness :
    mergeDatasets [mkRow "Hoba" (some 0)] [hobaCoord] = [hobaCoord] ∧
    mergeDatasets [hobaCoord] [mkRow "Hoba" (some 0)] = [hobaCoord] ∧
    hobaCoord.reclat = some (-1958 / 100 : ℚ) ∧
    hobaCoord.reclat.isSome := by
  have hval : hobaLat = -1958 / 100 := by
    rw [show hobaLat = Rat.mk' (-979) 50 from rfl, Rat.mk'_eq_divInt,
      Rat.divInt_eq_div]
    norm_num
  refine ⟨by decide, by decide,
    by rw [show hobaCoord.reclat = some hobaLat from rfl, hval], ?_⟩
  exact (merge_coordinate_priority [mkRow "Hoba" (some 0)] [hobaCoord]).2.2.2
    "Hoba" hobaCoord ⟨hobaCoord, by decide, rfl, rfl⟩ (by decide) rfl

/-! ## Stop conditions and error handling of the crawl loops -/

/-- The fill_remaining_ids loop visits every page of its range no matter
what the fetches return: errors and empty pages never end it early. -/
theorem remScan_visits (fetch : Nat → Option Page) (fuel : Nat) :
    ∀ (p : Nat) (d : Dict), (remScan fetch fuel p d).1 = List.range' p fuel := by
  induction fuel with
  | zero => intro p d; rfl
  | succ n ih =>
    intro p d
    cases h : fetch p with
    | none => simp [remScan, h, ih, List.range'_succ]
    | some pg => simp [remScan, h, ih, List.range'_succ]

/-- C4 counterexample: in the fill_missing_ids crawl a page yielding zero
extracted records does not halt the crawl — with every page empty, page 1
(and all 25 pages) are still fetched after empty page 0. -/
theorem empty_page_stop_cex :
    ((fun _ : Nat => some (⟨[], []⟩ : Page)) 0).map Page.links = some [] ∧
    1 ∈ (fillMissingCrawl (fun _ => some ⟨[], []⟩)).1 ∧
    (fillMissingCrawl (fun _ => some ⟨[], []⟩)).1 = List.range 25 :=
  ⟨rfl, by decide, by decide⟩

/-- C4 (amended): only the get_latest_meteorites crawl halts after a page
yielding zero records — whether the page has no parsable table or an empty
one — and it keeps the chunks gathered before that page; the
fill_missing_ids id-scan merely logs an empty page and continues with the
next page index. -/
theorem empty_page_stop (fetchA fetchB : Nat → UPage)
    (fetchI : Nat → Option Page) (fuel p : Nat) (acc : List (List Int))
    (d : Dict) (ys : List Nat) :
    (fetchA p = UPage.noTable → updateScan fetchA (fuel + 1) p acc = ([p], acc)) ∧
    (fetchB p = UPage.table [] → updateScan fetchB (fuel + 1) p acc = ([p], acc)) ∧
    (fetchI p = some ⟨[], ys⟩ →
      (fillMissingScan fetchI (fuel + 1) p d).1
        = p :: (fillMissingScan fetchI fuel (p + 1) d).1) := by
  refine ⟨fun h => ?_, fun h => ?_, fun h => ?_⟩
  · simp [updateScan, h]
  · simp [updateScan, h]
  · simp [fillMissingScan, h, indexPage]

/-- C4 witness: a no-table page, an empty-table page, and an empty id-scan
page, each at page 0. -/
theorem empty_page_stop_witness :
    updateScan (fun _ => UPage.noTable) 5 0 [] = ([0], []) ∧
    updateScan (fun _ => UPage.table []) 5 0 [] = ([0], []) ∧
    (fillMissingScan (fun _ => some ⟨[], []⟩) 5 0 []).1
      = 0 :: (fillMissingScan (fun _ => some ⟨[], []⟩) 4 1 []).1 := by
  obtain ⟨h1, h2, h3⟩ := empty_page_stop (fun _ => UPage.noTable)
    (fun _ => UPage.table []) (fun _ => some ⟨[], []⟩) 4 0 [] [] []
  exact ⟨h1 rfl, h2 rfl, h3 rfl⟩

/-- C5 counterexample: in the fill_missing_ids crawl an exception on page 0
breaks the scan loop — page 1 is never fetched, contrary to
log-and-advance. -/
theorem error_skip_cex :
    (fun p : Nat => if p = 0 then none else some (⟨[("X", 5)], []⟩ : Page)) 0
      = none ∧
    (fillMissingCrawl
        (fun p => if p = 0 then none else some ⟨[("X", 5)], []⟩)).1 = [0] :=
  ⟨rfl, by decide⟩

/-- C5 (amended): the fill_remaining_ids and finish_filling_ids loops log a
page-level fetch error and advance to the next page index without retrying
and without ending the session (fill_remaining_ids visits its whole range
unconditionally); the fill_missing_ids loop instead breaks out of the scan
on the first error, keeping the map gathered so far. -/
theorem error_skip (fetchR fetchF fetchI : Nat → Option Page)
    (fuel p : Nat) (d : Dict) :
    ((remScan fetchR fuel p d).1 = List.range' p fuel) ∧
    (fetchF p = none →
      (finishScan fetchF (fuel + 1) p d).1
        = p :: (finishScan fetchF fuel (p + 1) d).1) ∧
    (fetchI p = none → fillMissingScan fetchI (fuel + 1) p d = ([p], d)) := by
  refine ⟨remScan_visits fetchR fuel p d, fun h => ?_, fun h => ?_⟩
  · simp [finishScan, h]
  · simp [fillMissingScan, h]

/-- C5 witness: an error at page 100 of the deep scan still visits the
whole range; an error in finish_filling_ids advances to the next page; an
error in fill_missing_ids stops the scan. -/
theorem error_skip_witness :
    (remScan (fun _ => none) 3 100 []).1 = List.range' 100 3 ∧
    (finishScan (fun _ => none) 5 0 []).1
      = 0 :: (finishScan (fun _ => none) 4 1 []).1 ∧
    fillMissingScan (fun _ => none) 5 0 [] = ([0], []) := by
  obtain ⟨h1, h2, h3⟩ := error_skip (fun _ => none) (fun _ => none)
    (fun _ => none) 4 0 []
  exact ⟨remScan_visits (fun _ => none) 3 100 [], h2 rfl, h3 rfl⟩

/-- C6 counterexample: in the get_latest_meteorites crawl a page whose
minimum year token (2010) is below the 2012 floor does not stop the crawl,
because that loop tests the page maximum — page 1 is still fetched. -/
theorem year_floor_stop_cex :
    ([2010, 2015] : List Int).min? = some 2010 ∧ (2010 : Int) < 2012 ∧
    1 ∈ (updateScan
        (fun p => if p = 0 then UPage.table [2010, 2015] else UPage.table [2015])
        3 0 []).1 :=
  ⟨by decide, by decide, by decide⟩

/-- C6 (amended): the min-year-below-floor stop applies to the
finish_filling_ids crawl: a page with matches whose minimum year token is
below 2012 ends the scan after that page, and a page with matches but no
year tokens skips the check and the scan continues; the
get_latest_meteorites crawl instead stops when the page's maximum coerced
year is positive and below 2012. -/
theorem year_floor_stop (fetchA fetchB : Nat → Option Page)
    (fetchU : Nat → UPage) (pgA pgB : Page) (fuel p : Nat) (d : Dict)
    (acc : List (List Int)) (m : Nat) (ys : List Int) :
    (fetchA p = some pgA → pgA.links ≠ [] → pgA.years.min? = some m →
      m < 2012 → finishScan fetchA (fuel + 1) p d = ([p], indexPage d pgA.links)) ∧
    (fetchB p = some pgB → pgB.links ≠ [] → pgB.years = [] →
      (finishScan fetchB (fuel + 1) p d).1
        = p :: (finishScan fetchB fuel (p + 1) (indexPage d pgB.links)).1) ∧
    (fetchU p = UPage.table ys → ys ≠ [] → maxYear ys < 2012 →
      0 < maxYear ys → updateScan fetchU (fuel + 1) p acc = ([p], acc ++ [ys])) := by
  refine ⟨fun h1 h2 h3 h4 => ?_, fun h1 h2 h3 => ?_, fun h1 h2 h3 h4 => ?_⟩
  · have hne : pgA.links.isEmpty = false := by
      cases hl : pgA.links
      · exact absurd hl h2
      · rfl
    simp [finishScan, h1, hne, h3, h4]
  · have hne : pgB.links.isEmpty = false := by
      cases hl : pgB.links
      · exact absurd hl h2
      · rfl
    simp [finishScan, h1, hne, h3]
  · have hne : ys.isEmpty = false := by
      cases hl : ys
      · exact absurd hl h2
      · rfl
    simp [updateScan, h1, hne, h3, h4]

/-- C6 witness: a matched page with minimum year 2000 stops
finish_filling_ids; a matched page without year tokens lets it continue; a
table page with all years 2000 stops get_latest_meteorites. -/
theorem year_floor_stop_witness :
    finishScan (fun _ => some ⟨[("X", 5)], [2000]⟩) 5 0 []
      = ([0], indexPage [] [("X", 5)]) ∧
    (finishScan (fun _ => some ⟨[("X", 5)], []⟩) 5 0 []).1
      = 0 :: (finishScan (fun _ => some ⟨[("X", 5)], []⟩) 4 1
          (indexPage [] [("X", 5)])).1 ∧
    updateScan (fun _ => UPage.table [2000]) 5 0 [] = ([0], [] ++ [[2000]]) := by
  obtain ⟨h1, h2, h3⟩ := year_floor_stop (fun _ => some ⟨[("X", 5)], [2000]⟩)
    (fun _ => some ⟨[("X", 5)], []⟩) (fun _ => UPage.table [2000])
    ⟨[("X", 5)], [2000]⟩ ⟨[("X", 5)], []⟩ 4 0 [] [] 2000 [2000]
  exact ⟨h1 rfl (by decide) (by decide) (by decide), h2 rfl (by decide) rfl,
    h3 rfl (by decide) (by decide) (by decide)⟩

/-- C9 witness: against the single-entry index ("Allende" ↦ 5), the names
"Allende", "allende" and " Allende " share the comparison key and all
resolve to 5. -/
theorem compare_key_equiv_witness :
    pyLower (pyStrip "Allende") = pyLower (pyStrip " Allende ") ∧
    lookupName (buildMap [("Allende", 5)]) "Allende"
      = lookupName (buildMap [("Allende", 5)]) " Allende " ∧
    lookupName (buildMap [("Allende", 5)]) "allende"
      = lookupName (buildMap [("Allende", 5)]) " Allende " ∧
    lookupName (buildMap [("Allende", 5)]) "Allende" = 5 :=
  ⟨by decide,
    compare_key_equiv _ (by decide) (by decide) _ _ (by decide),
    compare_key_equiv _ (by decide) (by decide) _ _ (by decide),
    by decide⟩

end Meteorite
